import Mathlib

/-!
Shallow embedding of the audit-chain verifier in
`src/kernel/tools/verify_audit_chain.py`, together with proofs about it.

Modelling conventions:
- Parsed JSON values (the events and their fields) are modelled by the
  inductive type `Json`.  Python `None` and JSON `null` are one and the
  same value there, exactly as in the Python runtime, so both are `Json.null`.
  Numbers are modelled as integers (`Int`); the repository hashes records
  whose number fields are integers, and Python float formatting is out of
  scope of the claims.
- `hashlib.sha256(...).hexdigest()` is embedded as a full executable
  SHA-256 over byte lists (`sha256hex`), so every hash in the development
  is computed, not assumed.
- `json.dumps(x, sort_keys=True, separators=(",", ":"))` is embedded as
  `plainDumps (Json.normalize x)`: CPython's encoder with `sort_keys=True`
  emits every mapping with `items = sorted(dct.items())`, which is byte-for-byte
  the plain (insertion-order) serialization of the recursively key-sorted value.
- Ed25519 and PEM parsing (`cryptography.hazmat`) are external libraries;
  they enter the embedding as parameters: `loadKey` models
  `serialization.load_pem_public_key` (`none` = the call raises) and
  `vrf` models `public_key.verify` (`false` = the call raises
  `InvalidSignature`).  The `HAS_CRYPTO = True` branch is modelled, which is
  the configuration the specification describes.
- The script reports findings by printing `FAIL:` lines and clearing a
  `valid` flag; each printed finding is modelled as a `Finding` value
  tagged with the event position, and `valid` is exactly "no finding was
  ever recorded".  An uncaught Python `KeyError` is `Except.error`.
-/

set_option maxRecDepth 40000

namespace AuditChain

/-- Parsed JSON values, the data the verifier consumes.  Python `None`
(absent `.get` result) and JSON `null` are both `Json.null`. -/
inductive Json where
  | null : Json
  | bool (b : Bool) : Json
  | num (n : Int) : Json
  | str (s : String) : Json
  | arr (xs : List Json) : Json
  | obj (kvs : List (String × Json)) : Json

mutual
/-- Structural equality on parsed JSON, the meaning of Python `==` / `!=`
on values parsed by `json.load`. -/
def Json.beq : Json → Json → Bool
  | .null, .null => true
  | .bool a, .bool b => a == b
  | .num a, .num b => a == b
  | .str a, .str b => a == b
  | .arr xs, .arr ys => Json.beqList xs ys
  | .obj kvs, .obj lws => Json.beqKVs kvs lws
  | _, _ => false
def Json.beqList : List Json → List Json → Bool
  | [], [] => true
  | x :: xs, y :: ys => Json.beq x y && Json.beqList xs ys
  | _, _ => false
def Json.beqKVs : List (String × Json) → List (String × Json) → Bool
  | [], [] => true
  | (k, v) :: kvs, (l, w) :: lws => k == l && Json.beq v w && Json.beqKVs kvs lws
  | _, _ => false
end

mutual
theorem Json.beq_refl : ∀ a : Json, Json.beq a a = true
  | .null => rfl
  | .bool b => by simp [Json.beq]
  | .num n => by simp [Json.beq]
  | .str s => by simp [Json.beq]
  | .arr xs => by simpa [Json.beq] using Json.beqList_refl xs
  | .obj kvs => by simpa [Json.beq] using Json.beqKVs_refl kvs
theorem Json.beqList_refl : ∀ xs : List Json, Json.beqList xs xs = true
  | [] => rfl
  | x :: xs => by simp [Json.beqList, Json.beq_refl x, Json.beqList_refl xs]
theorem Json.beqKVs_refl : ∀ kvs : List (String × Json), Json.beqKVs kvs kvs = true
  | [] => rfl
  | (k, v) :: kvs => by simp [Json.beqKVs, Json.beq_refl v, Json.beqKVs_refl kvs]
end

mutual
theorem Json.eq_of_beq : ∀ a b : Json, Json.beq a b = true → a = b
  | .null, b, h => by cases b <;> simp_all [Json.beq]
  | .bool x, b, h => by cases b <;> simp_all [Json.beq]
  | .num x, b, h => by cases b <;> simp_all [Json.beq]
  | .str x, b, h => by cases b <;> simp_all [Json.beq]
  | .arr xs, .null, h => by simp [Json.beq] at h
  | .arr xs, .bool _, h => by simp [Json.beq] at h
  | .arr xs, .num _, h => by simp [Json.beq] at h
  | .arr xs, .str _, h => by simp [Json.beq] at h
  | .arr xs, .obj _, h => by simp [Json.beq] at h
  | .arr xs, .arr ys, h =>
      congrArg Json.arr (Json.eqList_of_beq xs ys (by simpa [Json.beq] using h))
  | .obj kvs, .null, h => by simp [Json.beq] at h
  | .obj kvs, .bool _, h => by simp [Json.beq] at h
  | .obj kvs, .num _, h => by simp [Json.beq] at h
  | .obj kvs, .str _, h => by simp [Json.beq] at h
  | .obj kvs, .arr _, h => by simp [Json.beq] at h
  | .obj kvs, .obj lws, h =>
      congrArg Json.obj (Json.eqKVs_of_beq kvs lws (by simpa [Json.beq] using h))
theorem Json.eqList_of_beq : ∀ xs ys : List Json, Json.beqList xs ys = true → xs = ys
  | [], [], _ => rfl
  | [], _ :: _, h => by simp [Json.beqList] at h
  | _ :: _, [], h => by simp [Json.beqList] at h
  | x :: xs, y :: ys, h => by
      have h2 := h
      simp only [Json.beqList, Bool.and_eq_true] at h2
      rw [Json.eq_of_beq x y h2.1, Json.eqList_of_beq xs ys h2.2]
theorem Json.eqKVs_of_beq :
    ∀ kvs lws : List (String × Json), Json.beqKVs kvs lws = true → kvs = lws
  | [], [], _ => rfl
  | [], _ :: _, h => by simp [Json.beqKVs] at h
  | _ :: _, [], h => by simp [Json.beqKVs] at h
  | (k, v) :: kvs, (l, w) :: lws, h => by
      have h2 := h
      simp only [Json.beqKVs, Bool.and_eq_true, beq_iff_eq] at h2
      rw [h2.1.1, Json.eq_of_beq v w h2.1.2, Json.eqKVs_of_beq kvs lws h2.2]
end

instance : DecidableEq Json := fun a b =>
  decidable_of_iff (Json.beq a b = true)
    ⟨Json.eq_of_beq a b, fun h => h ▸ Json.beq_refl a⟩

/-- Python truthiness of a parsed JSON value, as used by
`if public_key_pem and event.get('signature'):`. -/
def Json.truthy : Json → Bool
  | .null => false
  | .bool b => b
  | .num n => n != 0
  | .str s => s != ""
  | .arr xs => !xs.isEmpty
  | .obj kvs => !kvs.isEmpty

/-- Python string comparison `a < b`: lexicographic on Unicode code points.
Defined on explicit character lists so that it evaluates inside the kernel. -/
def charListLt : List Char → List Char → Bool
  | [], [] => false
  | [], _ :: _ => true
  | _ :: _, [] => false
  | a :: as, b :: bs => a.toNat < b.toNat || (a.toNat == b.toNat && charListLt as bs)

/-- Python string comparison `a <= b`. -/
def strLe (a b : String) : Bool := !(charListLt b.toList a.toList)

/-- The order by which `sorted(obj.items())` arranges the items of a Python
dict: by key, lexicographically on code points.  Dict keys are pairwise
distinct, so the tuple comparison `sorted` performs never reaches the
values and is a pure key comparison. -/
def keyLE (p q : String × Json) : Prop := strLe p.1 q.1 = true

instance : DecidableRel keyLE := fun p q => by unfold keyLE; infer_instance

/-- Embedding of `sorted(obj.items())` on the item list of a dict. -/
def sortKVs (kvs : List (String × Json)) : List (String × Json) :=
  List.insertionSort keyLE kvs

/-- Strict key order: at most one arrangement of a list of items with
pairwise-distinct keys is sorted under it. -/
def keyLT (p q : String × Json) : Prop := keyLE p q ∧ p.1 ≠ q.1

/-- Truncation to a 32-bit word. -/
def w32 (n : Nat) : Nat := n % 4294967296

/-- Right rotation of a 32-bit word. -/
def rotr32 (b n : Nat) : Nat := w32 ((n >>> b) ||| (n <<< (32 - b)))

def bsig0 (x : Nat) : Nat := rotr32 2 x ^^^ rotr32 13 x ^^^ rotr32 22 x

def bsig1 (x : Nat) : Nat := rotr32 6 x ^^^ rotr32 11 x ^^^ rotr32 25 x

def ssig0 (x : Nat) : Nat := rotr32 7 x ^^^ rotr32 18 x ^^^ (x >>> 3)

def ssig1 (x : Nat) : Nat := rotr32 17 x ^^^ rotr32 19 x ^^^ (x >>> 10)

def chf (x y z : Nat) : Nat := (x &&& y) ^^^ ((x ^^^ 4294967295) &&& z)

def majf (x y z : Nat) : Nat := (x &&& y) ^^^ (x &&& z) ^^^ (y &&& z)

/-- The 64 SHA-256 round constants of FIPS 180-4, written in decimal. -/
def shaK : List Nat :=
  [1116352408, 1899447441, 3049323471, 3921009573, 961987163, 1508970993,
   2453635748, 2870763221, 3624381080, 310598401, 607225278, 1426881987,
   1925078388, 2162078206, 2614888103, 3248222580, 3835390401, 4022224774,
   264347078, 604807628, 770255983, 1249150122, 1555081692, 1996064986,
   2554220882, 2821834349, 2952996808, 3210313671, 3336571891, 3584528711,
   113926993, 338241895, 666307205, 773529912, 1294757372, 1396182291,
   1695183700, 1986661051, 2177026350, 2456956037, 2730485921, 2820302411,
   3259730800, 3345764771, 3516065817, 3600352804, 4094571909, 275423344,
   430227734, 506948616, 659060556, 883997877, 958139571, 1322822218,
   1537002063, 1747873779, 1955562222, 2024104815, 2227730452, 2361852424,
   2428436474, 2756734187, 3204031479, 3329325298]

/-- The 8 initial SHA-256 hash words of FIPS 180-4, written in decimal. -/
def shaInit : List Nat :=
  [1779033703, 3144134277, 1013904242, 2773480762,
   1359893119, 2600822924, 528734635, 1541459225]

/-- Big-endian 8-byte rendering of a length in bits. -/
def be64 (n : Nat) : List Nat :=
  [(n >>> 56) % 256, (n >>> 48) % 256, (n >>> 40) % 256, (n >>> 32) % 256,
   (n >>> 24) % 256, (n >>> 16) % 256, (n >>> 8) % 256, n % 256]

/-- Big-endian 4-byte rendering of a 32-bit word. -/
def be32 (n : Nat) : List Nat :=
  [(n >>> 24) % 256, (n >>> 16) % 256, (n >>> 8) % 256, n % 256]

/-- SHA-256 message padding: a 0x80 byte, zeros to 56 mod 64, then the
bit length, big endian. -/
def padMessage (msg : List Nat) : List Nat :=
  let len := msg.length
  let padLen := (64 + 56 - ((len + 1) % 64)) % 64
  msg ++ [128] ++ List.replicate padLen 0 ++ be64 (8 * len)

/-- Big-endian 32-bit words of a byte list. -/
def toWords : List Nat → List Nat
  | a :: b :: c :: d :: rest => (a * 16777216 + b * 65536 + c * 256 + d) :: toWords rest
  | _ => []

/-- The 64-byte blocks of a padded message. -/
def chunk64 (l : List Nat) : List (List Nat) :=
  (l.foldl
    (fun (acc : List (List Nat) × List Nat) b =>
      let cur := acc.2 ++ [b]
      if cur.length = 64 then (acc.1 ++ [cur], []) else (acc.1, cur))
    ([], [])).1

/-- The SHA-256 message schedule: 16 words extended to 64. -/
def schedule (ws : List Nat) : List Nat :=
  (List.range 48).foldl
    (fun acc _ =>
      let n := acc.length
      acc ++ [w32 (ssig1 (acc.getD (n - 2) 0) + acc.getD (n - 7) 0 +
                   ssig0 (acc.getD (n - 15) 0) + acc.getD (n - 16) 0)])
    ws

/-- One SHA-256 round on the 8-word working state. -/
def compressStep (state : List Nat) (kw : Nat × Nat) : List Nat :=
  match state with
  | [a, b, c, d, e, f, g, h] =>
    let t1 := w32 (h + bsig1 e + chf e f g + kw.1 + kw.2)
    let t2 := w32 (bsig0 a + majf a b c)
    [w32 (t1 + t2), a, b, c, w32 (d + t1), e, f, g]
  | s => s

/-- SHA-256 compression of one 64-byte block into the hash state. -/
def compressBlock (h : List Nat) (block : List Nat) : List Nat :=
  let ws := schedule (toWords block)
  let final := (shaK.zip ws).foldl compressStep h
  (h.zip final).map (fun p => w32 (p.1 + p.2))

/-- SHA-256 digest of a byte list, as 32 bytes. -/
def sha256bytes (msg : List Nat) : List Nat :=
  (((chunk64 (padMessage msg)).foldl compressBlock shaInit).map be32).flatten

/-- Lowercase hexadecimal digit. -/
def hexChar (n : Nat) : Char := if n < 10 then Char.ofNat (48 + n) else Char.ofNat (87 + n)

/-- Embedding of `hashlib.sha256(data).hexdigest()`: the SHA-256 digest
rendered as 64 lowercase hexadecimal characters. -/
def sha256hex (msg : List Nat) : String :=
  String.mk ((sha256bytes msg).map (fun b => [hexChar (b / 16), hexChar (b % 16)])).flatten

/-- UTF-8 bytes of one character. -/
def utf8Char (c : Char) : List Nat :=
  let n := c.toNat
  if n < 128 then [n]
  else if n < 2048 then [192 + n / 64, 128 + n % 64]
  else if n < 65536 then [224 + n / 4096, 128 + (n / 64) % 64, 128 + n % 64]
  else [240 + n / 262144, 128 + (n / 4096) % 64, 128 + (n / 64) % 64, 128 + n % 64]

/-- Embedding of `s.encode('utf-8')`. -/
def utf8Encode (s : String) : List Nat := (s.toList.map utf8Char).flatten

/-- JSON escape of one character as `json.dumps` writes it with its
default `ensure_ascii=True`: printable ASCII passes through, the short
escapes cover the usual control characters, everything else becomes
`\uXXXX` (with surrogate pairs above the basic plane). -/
def jsonEscapeChar (c : Char) : String :=
  if c = '"' then "\\\""
  else if c = '\\' then "\\\\"
  else if c = '\n' then "\\n"
  else if c = '\r' then "\\r"
  else if c = '\t' then "\\t"
  else if c.toNat = 8 then "\\b"
  else if c.toNat = 12 then "\\f"
  else if c.toNat < 32 ∨ c.toNat > 126 then
    if c.toNat < 65536 then
      String.mk ['\\', 'u', hexChar (c.toNat / 4096 % 16), hexChar (c.toNat / 256 % 16),
                 hexChar (c.toNat / 16 % 16), hexChar (c.toNat % 16)]
    else
      let v := c.toNat - 65536
      let hi := 55296 + v / 1024
      let lo := 56320 + v % 1024
      String.mk ['\\', 'u', hexChar (hi / 4096 % 16), hexChar (hi / 256 % 16),
                 hexChar (hi / 16 % 16), hexChar (hi % 16),
                 '\\', 'u', hexChar (lo / 4096 % 16), hexChar (lo / 256 % 16),
                 hexChar (lo / 16 % 16), hexChar (lo % 16)]
  else String.mk [c]

/-- A JSON string literal as `json.dumps` writes it. -/
def jsonQuote (s : String) : String :=
  "\"" ++ String.join (s.toList.map jsonEscapeChar) ++ "\""

mutual
/-- Plain JSON serialization with no insignificant whitespace, emitting
object keys in stored order; with `Json.normalize` in front it embeds
`json.dumps(x, sort_keys=True, separators=(",", ":"))` (see the module
comment).  Integers render as Python renders them, without a trailing
fractional marker. -/
def plainDumps : Json → String
  | .null => "null"
  | .bool b => cond b "true" "false"
  | .num n => toString n
  | .str s => jsonQuote s
  | .arr xs => "[" ++ dumpsList xs ++ "]"
  | .obj kvs => "\x7b" ++ dumpsKVs kvs ++ "\x7d"
def dumpsList : List Json → String
  | [] => ""
  | [x] => plainDumps x
  | x :: xs => plainDumps x ++ "," ++ dumpsList xs
def dumpsKVs : List (String × Json) → String
  | [] => ""
  | [(k, v)] => jsonQuote k ++ ":" ++ plainDumps v
  | (k, v) :: kvs => jsonQuote k ++ ":" ++ plainDumps v ++ "," ++ dumpsKVs kvs
end

mutual
/-- Embedding of the source function `normalize`: scalars and null pass
through, lists keep their order with members normalized recursively, and
every dict is rewritten with its items sorted by key.  The source writes
the dict case as `{k: normalize(v) for k, v in sorted(obj.items())}`;
since `sorted` arranges the items of a dict by key alone and the value
normalization keeps every key, sorting and the per-item rewriting commute,
and the theorem `normalize_obj_source_order` below shows this definition
equals that sort-first form verbatim. -/
def Json.normalize : Json → Json
  | .null => .null
  | .bool b => .bool b
  | .num n => .num n
  | .str s => .str s
  | .arr xs => .arr (Json.normalizeList xs)
  | .obj kvs => .obj (sortKVs (Json.normalizeKVs kvs))
def Json.normalizeList : List Json → List Json
  | [] => []
  | x :: xs => Json.normalize x :: Json.normalizeList xs
def Json.normalizeKVs : List (String × Json) → List (String × Json)
  | [] => []
  | (k, v) :: kvs => (k, Json.normalize v) :: Json.normalizeKVs kvs
end

/-- The fixed 4-field record the verifier hashes, from `compute_hash`:
`{"eventType": ..., "payload": normalize(payload), "prevHash": ..., "ts": ...}`. -/
def hashData (event_type payload prev_hash ts : Json) : Json :=
  .obj [("eventType", event_type), ("payload", Json.normalize payload),
        ("prevHash", prev_hash), ("ts", ts)]

/-- The `canonical_json` string `compute_hash` builds:
`json.dumps(data, sort_keys=True, separators=(",", ":"))`. -/
def canonical_json (event_type payload prev_hash ts : Json) : String :=
  plainDumps (Json.normalize (hashData event_type payload prev_hash ts))

/-- Embedding of the source function `compute_hash`. -/
def compute_hash (event_type payload prev_hash ts : Json) : String :=
  sha256hex (utf8Encode (canonical_json event_type payload prev_hash ts))

/-- Value of one character in the standard base64 alphabet. -/
def b64Val (c : Char) : Option Nat :=
  if 'A' ≤ c ∧ c ≤ 'Z' then some (c.toNat - 65)
  else if 'a' ≤ c ∧ c ≤ 'z' then some (c.toNat - 97 + 26)
  else if '0' ≤ c ∧ c ≤ '9' then some (c.toNat - 48 + 52)
  else if c = '+' then some 62
  else if c = '/' then some 63
  else none

/-- Base64 quads as `binascii.a2b_base64` consumes them: four data
characters yield three bytes, a quad closed by padding yields its one or
two bytes and ends the decode (characters after the padding are ignored),
and a leftover of fewer than four characters is invalid padding. -/
def b64Quads : List Char → Option (List Nat)
  | [] => some []
  | a :: b :: c :: d :: rest =>
    if a = '=' then (if b = '=' ∧ c = '=' ∧ d = '=' then some [] else none)
    else
      match b64Val a, b64Val b with
      | some va, some vb =>
        if c = '=' then (if d = '=' then some [va * 4 + vb / 16] else none)
        else
          match b64Val c with
          | some vc =>
            if d = '=' then some [va * 4 + vb / 16, (vb % 16) * 16 + vc / 4]
            else
              match b64Val d with
              | some vd =>
                (b64Quads rest).map
                  (fun t => (va * 4 + vb / 16) :: ((vb % 16) * 16 + vc / 4) ::
                            ((vc % 4) * 64 + vd) :: t)
              | none => none
          | none => none
      | _, _ => none
  | _ => none

/-- Embedding of `base64.b64decode(s)` on a Python `str`: the string must
be ASCII, characters outside the alphabet and padding are discarded, and
the rest is decoded quad by quad; `none` is the call raising. -/
def b64decode (s : String) : Option (List Nat) :=
  if s.toList.any (fun c => 128 ≤ c.toNat) then none
  else b64Quads (s.toList.filter (fun c => (b64Val c).isSome || c = '='))

/-- Value of one hexadecimal digit, either case. -/
def hexVal (c : Char) : Option Nat :=
  if '0' ≤ c ∧ c ≤ '9' then some (c.toNat - 48)
  else if 'a' ≤ c ∧ c ≤ 'f' then some (c.toNat - 97 + 10)
  else if 'A' ≤ c ∧ c ≤ 'F' then some (c.toNat - 65 + 10)
  else none

/-- Hex digit pairs as `bytes.fromhex` reads them: spaces may separate
pairs but may not split one. -/
def hexPairs : List Char → Option (List Nat)
  | [] => some []
  | ' ' :: rest => hexPairs rest
  | a :: b :: rest =>
    match hexVal a, hexVal b with
    | some va, some vb => (hexPairs rest).map (fun t => (va * 16 + vb) :: t)
    | _, _ => none
  | _ => none

/-- Embedding of `bytes.fromhex(s)`; `none` is the call raising. -/
def hexDecode (s : String) : Option (List Nat) := hexPairs s.toList

/-- The signature transport decode of `verify_signature`: base64 first,
and only if that raises, the fallback `bytes.fromhex`. -/
def sigDecode (s : String) : Option (List Nat) :=
  match b64decode s with
  | some bs => some bs
  | none => hexDecode s

/-- Embedding of the source function `verify_signature` (its
`HAS_CRYPTO = True` branch).  `loadKey` stands for
`serialization.load_pem_public_key` and `vrf` for `public_key.verify`
over an abstract key type `K`; any exception on the way (bad PEM, both
decodes failing, a non-string signature or hash, or `InvalidSignature`)
makes the function return `false`. -/
def verify_signature {K : Type} (loadKey : String → Option K)
    (vrf : K → List Nat → List Nat → Bool)
    (public_key_pem : String) (signature_hex data_hash : Json) : Bool :=
  match loadKey public_key_pem with
  | none => false
  | some key =>
    match signature_hex with
    | .str s =>
      match sigDecode s with
      | none => false
      | some sigBytes =>
        match data_hash with
        | .str h => vrf key sigBytes (utf8Encode h)
        | _ => false
    | _ => false

/-- One audit event as the verifier reads it: a JSON record whose fields
may be absent.  `none` is an absent key (`event['f']` raises `KeyError`,
`event.get('f')` yields Python `None`); `some v` is a present field with
parsed value `v`, so an explicit JSON `null` is `some Json.null`. -/
structure AuditEvent where
  id : Option Json := none
  eventType : Option Json := none
  payload : Option Json := none
  prevHash : Option Json := none
  ts : Option Json := none
  hash : Option Json := none
  signature : Option Json := none
  deriving DecidableEq

instance : Inhabited AuditEvent := ⟨{}⟩

/-- One verification finding, i.e. one `FAIL:` diagnostic of
`verify_chain`, tagged with the position of the offending event in the
given sequence. -/
inductive Finding where
  | hashMismatch (index : Nat) (calculated : String) (stored : Json)
  | chainBreak (index : Nat) (expected actual : Json)
  | signatureInvalid (index : Nat)
  deriving DecidableEq

def isChainBreak : Finding → Bool
  | .chainBreak _ _ _ => true
  | _ => false

def isSignatureInvalid : Finding → Bool
  | .signatureInvalid _ => true
  | _ => false

/-- The uncaught Python exceptions a verification run can die with:
`event['field']` on an absent key raises `KeyError(field)`. -/
inductive VerifyError where
  | keyError (field : String)
  deriving DecidableEq

/-- Python truthiness of the optional `public_key_pem` argument. -/
def pemTruthy : Option String → Bool
  | none => false
  | some s => s != ""

/-- The body of one iteration of the `for i, event in enumerate(events)`
loop of `verify_chain`, up to the findings it records: field lookups in
the order the source performs them (`eventType`, `payload`, `ts`, then
`hash`; `prevHash` and `signature` use `.get` and cannot raise), the hash
recomputation and comparison, the link check against the carried
`previous_hash`, and the signature check.  Returns the findings of this
event and the stored hash the loop then assigns to `previous_hash`. -/
def verifyStep {K : Type} (loadKey : String → Option K)
    (vrf : K → List Nat → List Nat → Bool) (public_key_pem : Option String)
    (i : Nat) (previous_hash : Json) (event : AuditEvent) :
    Except VerifyError (List Finding × Json) :=
  match event.eventType with
  | none => .error (.keyError "eventType")
  | some event_type =>
    match event.payload with
    | none => .error (.keyError "payload")
    | some payload =>
      let prev := event.prevHash.getD .null
      match event.ts with
      | none => .error (.keyError "ts")
      | some ts =>
        let calc_hash := compute_hash event_type payload prev ts
        match event.hash with
        | none => .error (.keyError "hash")
        | some stored =>
          let f1 := if Json.str calc_hash ≠ stored then
                      [Finding.hashMismatch i calc_hash stored] else []
          let f2 := if 0 < i ∧ prev ≠ previous_hash then
                      [Finding.chainBreak i previous_hash prev] else []
          let sigv := event.signature.getD .null
          let f3 := if pemTruthy public_key_pem ∧ sigv.truthy = true then
                      (if verify_signature loadKey vrf (public_key_pem.getD "")
                            sigv stored then [] else [Finding.signatureInvalid i])
                    else []
          .ok (f1 ++ f2 ++ f3, stored)

/-- The whole `for` loop of `verify_chain`: events in order, carrying the
index and `previous_hash`, collecting findings; a raised `KeyError`
aborts the remainder. -/
def verifyFold {K : Type} (loadKey : String → Option K)
    (vrf : K → List Nat → List Nat → Bool) (public_key_pem : Option String) :
    Nat → Json → List AuditEvent → Except VerifyError (List Finding)
  | _, _, [] => .ok []
  | i, previous_hash, event :: rest =>
    match verifyStep loadKey vrf public_key_pem i previous_hash event with
    | .error e => .error e
    | .ok (fs, stored) =>
      match verifyFold loadKey vrf public_key_pem (i + 1) stored rest with
      | .error e => .error e
      | .ok more => .ok (fs ++ more)

/-- Embedding of the source function `verify_chain`.  An empty sequence
returns immediately (the source prints `No events to verify.` and returns
`True`).  Otherwise the result is the final `valid` flag, which the
source clears exactly when it records a finding, together with the
findings themselves. -/
def verify_chain {K : Type} (loadKey : String → Option K)
    (vrf : K → List Nat → List Nat → Bool) (events : List AuditEvent)
    (public_key_pem : Option String) : Except VerifyError (Bool × List Finding) :=
  if events.isEmpty then .ok (true, [])
  else
    match verifyFold loadKey vrf public_key_pem 0 Json.null events with
    | .error e => .error e
    | .ok fs => .ok (fs.isEmpty, fs)

deriving instance DecidableEq for Except

/-- The four fields whose lookup `verify_chain` performs with `event[...]`
and whose absence therefore raises `KeyError`. -/
def RequiredFields (e : AuditEvent) : Prop :=
  e.eventType.isSome = true ∧ e.payload.isSome = true ∧
  e.ts.isSome = true ∧ e.hash.isSome = true

instance : DecidablePred RequiredFields := fun e => by
  unfold RequiredFields; infer_instance

/-- The findings of one loop iteration, as a pure function of the event,
its position and the carried `previous_hash` (defined for events whose
required fields are present; `verifyStep_eq_ok` ties it to `verifyStep`). -/
def eventFindings {K : Type} (loadKey : String → Option K)
    (vrf : K → List Nat → List Nat → Bool) (public_key_pem : Option String)
    (i : Nat) (previous_hash : Json) (e : AuditEvent) : List Finding :=
  let prev := e.prevHash.getD .null
  let calc_hash := compute_hash (e.eventType.getD .null) (e.payload.getD .null)
      prev (e.ts.getD .null)
  let stored := e.hash.getD .null
  let sigv := e.signature.getD .null
  (if Json.str calc_hash ≠ stored then [Finding.hashMismatch i calc_hash stored] else []) ++
  (if 0 < i ∧ prev ≠ previous_hash then [Finding.chainBreak i previous_hash prev] else []) ++
  (if pemTruthy public_key_pem ∧ sigv.truthy = true then
     (if verify_signature loadKey vrf (public_key_pem.getD "") sigv stored
      then [] else [Finding.signatureInvalid i])
   else [])

/-- The findings of a whole run over events whose required fields are
present: each event contributes exactly its own findings, and the carried
state advances to the stored hash of the event just processed. -/
def chainFindings {K : Type} (loadKey : String → Option K)
    (vrf : K → List Nat → List Nat → Bool) (public_key_pem : Option String) :
    Nat → Json → List AuditEvent → List Finding
  | _, _, [] => []
  | i, previous_hash, e :: rest =>
    eventFindings loadKey vrf public_key_pem i previous_hash e ++
    chainFindings loadKey vrf public_key_pem (i + 1) (e.hash.getD .null) rest

/-- Chain linkage of a segment relative to an expected previous stored
hash: every event links to its predecessor, the first one to `prev`. -/
def LinksOk (prev : Json) : List AuditEvent → Prop
  | [] => True
  | e :: rest => e.prevHash.getD .null = prev ∧ LinksOk (e.hash.getD .null) rest

instance instDecidableLinksOk : ∀ (prev : Json) (l : List AuditEvent), Decidable (LinksOk prev l)
  | _, [] => .isTrue trivial
  | _, e :: rest =>
    @instDecidableAnd _ _ _ (instDecidableLinksOk (e.hash.getD .null) rest)

/-- The stored hash of the last event of a segment, or `prev` when the
segment is empty: what `previous_hash` holds after the segment ran. -/
def chainEnd (prev : Json) : List AuditEvent → Json
  | [] => prev
  | e :: rest => chainEnd (e.hash.getD .null) rest

/-- The stored hash of the event before position `j`, or `Json.null` for
the first position: the value `previous_hash` holds when event `j` is
checked. -/
def prevBefore (events : List AuditEvent) (j : Nat) : Json :=
  if j = 0 then Json.null else ((events.getD (j - 1) default).hash).getD .null

mutual
/-- Boolean well-formedness of parsed JSON: every mapping anywhere inside
has pairwise-distinct keys.  Every value obtained from a Python dict
(hence from `json.load`) satisfies this by construction. -/
def Json.wfKeys : Json → Bool
  | .null => true
  | .bool _ => true
  | .num _ => true
  | .str _ => true
  | .arr xs => Json.wfKeysList xs
  | .obj kvs => decide ((kvs.map Prod.fst).Nodup) && Json.wfKeysKVs kvs
def Json.wfKeysList : List Json → Bool
  | [] => true
  | x :: xs => Json.wfKeys x && Json.wfKeysList xs
def Json.wfKeysKVs : List (String × Json) → Bool
  | [] => true
  | (_, v) :: kvs => Json.wfKeys v && Json.wfKeysKVs kvs
end

mutual
/-- Two JSON values are equal up to the insertion order of mapping keys,
at any nesting depth: scalars must coincide, sequences correspond
pointwise, and mappings correspond after some permutation of their
entries, with equal keys and related values. -/
inductive KeyPerm : Json → Json → Prop where
  | null : KeyPerm .null .null
  | bool (b : Bool) : KeyPerm (.bool b) (.bool b)
  | num (n : Int) : KeyPerm (.num n) (.num n)
  | str (s : String) : KeyPerm (.str s) (.str s)
  | arr {xs ys : List Json} : KeyPermList xs ys → KeyPerm (.arr xs) (.arr ys)
  | obj {kvs kvs1 kvs2 : List (String × Json)} :
      kvs.Perm kvs1 → KeyPermKVs kvs1 kvs2 → KeyPerm (.obj kvs) (.obj kvs2)
inductive KeyPermList : List Json → List Json → Prop where
  | nil : KeyPermList [] []
  | cons {x y : Json} {xs ys : List Json} :
      KeyPerm x y → KeyPermList xs ys → KeyPermList (x :: xs) (y :: ys)
inductive KeyPermKVs : List (String × Json) → List (String × Json) → Prop where
  | nil : KeyPermKVs [] []
  | cons {k : String} {v w : Json} {kvs lws : List (String × Json)} :
      KeyPerm v w → KeyPermKVs kvs lws → KeyPermKVs ((k, v) :: kvs) ((k, w) :: lws)
end

/-- The first invariant of the specification for one event: the stored
hash equals the recomputed digest over the fields the verifier reads. -/
def HashOk (e : AuditEvent) : Prop :=
  e.hash = some (.str (compute_hash (e.eventType.getD .null) (e.payload.getD .null)
    (e.prevHash.getD .null) (e.ts.getD .null)))

instance : DecidablePred HashOk := fun e => by unfold HashOk; infer_instance

/-- The third invariant of the specification for one event: whenever the
signature check is reached (key supplied and truthy, signature present and
truthy), it succeeds over the stored hash. -/
def SigOk {K : Type} (loadKey : String → Option K)
    (vrf : K → List Nat → List Nat → Bool) (pem : Option String) (e : AuditEvent) : Prop :=
  pemTruthy pem = true → (e.signature.getD .null).truthy = true →
    verify_signature loadKey vrf (pem.getD "") (e.signature.getD .null)
      (e.hash.getD .null) = true

instance {K : Type} (loadKey : String → Option K) (vrf : K → List Nat → List Nat → Bool)
    (pem : Option String) : DecidablePred (SigOk loadKey vrf pem) := fun e => by
  unfold SigOk; infer_instance

/-- The ChainBreak findings a run over a segment records, as a function of
the start index, the carried previous stored hash and the events alone. -/
def breaksFrom : Nat → Json → List AuditEvent → List Finding
  | _, _, [] => []
  | i, prev, e :: rest =>
    (if 0 < i ∧ e.prevHash.getD .null ≠ prev then
       [Finding.chainBreak i prev (e.prevHash.getD .null)] else []) ++
    breaksFrom (i + 1) (e.hash.getD .null) rest

/-- A correctly hashed, correctly linked two-event chain used as concrete
input by several witnesses; its hash values are the SHA-256 digests of the
canonical encodings, verified by the kernel in the witness proofs. -/
def genesisEvent : AuditEvent :=
  { eventType := some (.str "a"), payload := some (.obj [("x", .num 1)]),
    ts := some (.str "t0"),
    hash := some (.str "aef0698812b717bd69dc01de8bf19b77d3eb6dc6afc73470fa929beaaa40a168") }

def secondEvent : AuditEvent :=
  { eventType := some (.str "b"), payload := some (.arr [.num 1, .str "s"]),
    prevHash := some (.str "aef0698812b717bd69dc01de8bf19b77d3eb6dc6afc73470fa929beaaa40a168"),
    ts := some (.str "t1"),
    hash := some (.str "e29acdfafefae559104d3a16bd5a68d866a4f876b957f22f964abb83db029529") }

/-- `secondEvent` with its link damaged: `prevHash` no longer names the
stored hash of `genesisEvent`. -/
def brokenLinkEvent : AuditEvent :=
  { secondEvent with prevHash := some (.str "deadbeef") }

/-- A correctly hashed single event that carries a (base64) signature. -/
def signedEvent : AuditEvent :=
  { eventType := some (.str "s"), payload := some (.str "p"),
    ts := some (.str "t"),
    hash := some (.str "d580bd0e7b0fa4090c5999a6fb21b3c89e24acd6b6e0a6c52f20979225066874"),
    signature := some (.str "c2ln") }

/-- An event lacking the required field `ts`. -/
def missingTsEvent : AuditEvent :=
  { eventType := some (.str "m"), payload := some .null,
    hash := some (.str "not-checked") }

/-- An event lacking the required field `payload`. -/
def missingPayloadEvent : AuditEvent :=
  { eventType := some (.str "m2"), ts := some (.str "t9"),
    hash := some (.str "also-not-checked") }

theorem verifyStep_eq_ok {K : Type} (loadKey : String → Option K)
    (vrf : K → List Nat → List Nat → Bool) (pem : Option String)
    (i : Nat) (prev : Json) (e : AuditEvent) (h : RequiredFields e) :
    verifyStep loadKey vrf pem i prev e =
      .ok (eventFindings loadKey vrf pem i prev e, e.hash.getD .null) := by
  obtain ⟨h1, h2, h3, h4⟩ := h
  obtain ⟨et, het⟩ := Option.isSome_iff_exists.mp h1
  obtain ⟨p, hp⟩ := Option.isSome_iff_exists.mp h2
  obtain ⟨t, ht⟩ := Option.isSome_iff_exists.mp h3
  obtain ⟨hv, hhv⟩ := Option.isSome_iff_exists.mp h4
  simp [verifyStep, eventFindings, het, hp, ht, hhv]

theorem verifyFold_cons {K : Type} (loadKey : String → Option K)
    (vrf : K → List Nat → List Nat → Bool) (pem : Option String)
    (i : Nat) (prev : Json) (e : AuditEvent) (rest : List AuditEvent)
    (h : RequiredFields e) :
    verifyFold loadKey vrf pem i prev (e :: rest) =
      Except.map (fun fs => eventFindings loadKey vrf pem i prev e ++ fs)
        (verifyFold loadKey vrf pem (i + 1) (e.hash.getD .null) rest) := by
  simp only [verifyFold, verifyStep_eq_ok loadKey vrf pem i prev e h]
  cases verifyFold loadKey vrf pem (i + 1) (e.hash.getD .null) rest <;>
    simp [Except.map]

theorem verifyFold_eq_ok {K : Type} (loadKey : String → Option K)
    (vrf : K → List Nat → List Nat → Bool) (pem : Option String) :
    ∀ (l : List AuditEvent) (i : Nat) (prev : Json), (∀ e ∈ l, RequiredFields e) →
      verifyFold loadKey vrf pem i prev l = .ok (chainFindings loadKey vrf pem i prev l)
  | [], _, _, _ => rfl
  | e :: rest, i, prev, h => by
    rw [verifyFold_cons loadKey vrf pem i prev e rest (h e (List.mem_cons_self e rest)),
        verifyFold_eq_ok loadKey vrf pem rest (i + 1) (e.hash.getD .null)
          (fun x hx => h x (List.mem_cons_of_mem e hx))]
    simp [Except.map, chainFindings]

theorem verify_chain_eq_ok {K : Type} (loadKey : String → Option K)
    (vrf : K → List Nat → List Nat → Bool) (pem : Option String)
    (events : List AuditEvent) (h : ∀ e ∈ events, RequiredFields e) :
    verify_chain loadKey vrf events pem =
      .ok ((chainFindings loadKey vrf pem 0 Json.null events).isEmpty,
           chainFindings loadKey vrf pem 0 Json.null events) := by
  cases events with
  | nil => rfl
  | cons e rest =>
    simp only [verify_chain, List.isEmpty_cons, Bool.false_eq_true, if_false,
      verifyFold_eq_ok loadKey vrf pem (e :: rest) 0 Json.null h]

theorem eventFindings_sublist_chainFindings {K : Type} (loadKey : String → Option K)
    (vrf : K → List Nat → List Nat → Bool) (pem : Option String) :
    ∀ (l : List AuditEvent) (i : Nat) (prev : Json) (j : Nat), j < l.length →
      (eventFindings loadKey vrf pem (i + j)
          (if j = 0 then prev else ((l.getD (j - 1) default).hash).getD .null)
          (l.getD j default)).Sublist
        (chainFindings loadKey vrf pem i prev l)
  | [], _, _, j, hj => by simp at hj
  | e :: rest, i, prev, 0, _ => by
    simpa [chainFindings] using
      List.sublist_append_left (eventFindings loadKey vrf pem i prev e)
        (chainFindings loadKey vrf pem (i + 1) (e.hash.getD .null) rest)
  | e :: rest, i, prev, j + 1, hj => by
    have hrec := eventFindings_sublist_chainFindings loadKey vrf pem rest (i + 1)
      (e.hash.getD .null) j (by simpa using Nat.lt_of_succ_lt_succ hj)
    have harith : i + 1 + j = i + (j + 1) := by omega
    have hprev : (if j = 0 then e.hash.getD .null
        else ((rest.getD (j - 1) default).hash).getD .null) =
        (if j + 1 = 0 then prev
         else (((e :: rest).getD (j + 1 - 1) default).hash).getD .null) := by
      cases j with
      | zero => simp
      | succ jj => simp [List.getD_cons_succ]
    rw [harith, hprev] at hrec
    have hstep : (eventFindings loadKey vrf pem (i + (j + 1))
        (if j + 1 = 0 then prev
         else (((e :: rest).getD (j + 1 - 1) default).hash).getD .null)
        ((e :: rest).getD (j + 1) default)).Sublist
          (chainFindings loadKey vrf pem (i + 1) (e.hash.getD .null) rest) := by
      simpa [List.getD_cons_succ] using hrec
    have happ : (chainFindings loadKey vrf pem (i + 1) (e.hash.getD .null) rest).Sublist
        (chainFindings loadKey vrf pem i prev (e :: rest)) := by
      simpa [chainFindings] using
        (List.sublist_append_right (eventFindings loadKey vrf pem i prev e)
          (chainFindings loadKey vrf pem (i + 1) (e.hash.getD .null) rest))
    exact hstep.trans happ

/-- C6 (amended): for the empty event sequence the run returns
immediately, before any findings are produced, with `valid = true` — the
source prints `No events to verify.` and returns `True`, so an empty
input is reported as a successful verification. -/
theorem empty_sequence_returns_valid {K : Type} (loadKey : String → Option K)
    (vrf : K → List Nat → List Nat → Bool) (pem : Option String) :
    verify_chain loadKey vrf ([] : List AuditEvent) pem = .ok (true, []) := rfl

/-- C6, counterexample to the claim as stated: on the empty sequence the
run does not abort and does report a successful verification
(`valid = true`), at the concrete instantiation where no key material and
no verifier oracle are available at all. -/
theorem empty_sequence_reports_valid_counterexample :
    verify_chain (fun _ : String => (none : Option Unit)) (fun _ _ _ => false)
      ([] : List AuditEvent) none = .ok (true, []) := rfl

/-- C10: an event whose `prevHash` field is absent and an otherwise
identical event whose `prevHash` is an explicit JSON `null` produce the
same canonical encoding, the same recomputed digest, and the same
verification step outcome: `event.get('prevHash')` collapses absence to
`None`, which is canonicalized as `null` before hashing. -/
theorem absent_prevHash_hashes_as_null {K : Type} (loadKey : String → Option K)
    (vrf : K → List Nat → List Nat → Bool) (pem : Option String)
    (i : Nat) (prev : Json) (e : AuditEvent) (et p t : Json) :
    canonical_json et p (({e with prevHash := none} : AuditEvent).prevHash.getD .null) t =
      canonical_json et p (({e with prevHash := some .null} : AuditEvent).prevHash.getD .null) t ∧
    compute_hash et p (({e with prevHash := none} : AuditEvent).prevHash.getD .null) t =
      compute_hash et p (({e with prevHash := some .null} : AuditEvent).prevHash.getD .null) t ∧
    verifyStep loadKey vrf pem i prev {e with prevHash := none} =
      verifyStep loadKey vrf pem i prev {e with prevHash := some .null} :=
  ⟨rfl, rfl, rfl⟩

theorem verifyFold_append_error {K : Type} (loadKey : String → Option K)
    (vrf : K → List Nat → List Nat → Bool) (pem : Option String)
    (e : AuditEvent) (hmiss : ¬ RequiredFields e) :
    ∀ (pre : List AuditEvent) (i : Nat) (prev : Json), (∀ x ∈ pre, RequiredFields x) →
      ∃ f, ∀ post : List AuditEvent,
        verifyFold loadKey vrf pem i prev (pre ++ e :: post) = .error (.keyError f) := by
  intro pre
  induction pre with
  | nil =>
    intro i prev _
    match h1 : e.eventType with
    | none => exact ⟨"eventType", fun post => by simp [verifyFold, verifyStep, h1]⟩
    | some et =>
      match h2 : e.payload with
      | none => exact ⟨"payload", fun post => by simp [verifyFold, verifyStep, h1, h2]⟩
      | some p =>
        match h3 : e.ts with
        | none => exact ⟨"ts", fun post => by simp [verifyFold, verifyStep, h1, h2, h3]⟩
        | some t =>
          match h4 : e.hash with
          | none => exact ⟨"hash", fun post => by simp [verifyFold, verifyStep, h1, h2, h3, h4]⟩
          | some hv =>
            exact absurd ⟨by simp [h1], by simp [h2], by simp [h3], by simp [h4]⟩ hmiss
  | cons x pre ih =>
    intro i prev hx
    obtain ⟨f, hf⟩ := ih (i + 1) (x.hash.getD .null) (fun y hy => hx y (List.mem_cons_of_mem x hy))
    refine ⟨f, fun post => ?_⟩
    rw [List.cons_append, verifyFold_cons loadKey vrf pem i prev x _
      (hx x (List.mem_cons_self x pre)), hf post]
    rfl

/-- C4 (amended): an event lacking a required field (`eventType`,
`payload`, `ts` or `hash`) makes the whole run abort with an uncaught
`KeyError` naming a missing field: no finding of any kind is produced for
it, and the events after it are never scanned — the result does not
depend on them.  The source has no `MissingField` finding and no
per-event recovery; `event['...']` raises out of `verify_chain`. -/
theorem missing_field_aborts_run {K : Type} (loadKey : String → Option K)
    (vrf : K → List Nat → List Nat → Bool) (pem : Option String)
    (pre : List AuditEvent) (e : AuditEvent) (post : List AuditEvent)
    (hpre : ∀ x ∈ pre, RequiredFields x) (hmiss : ¬ RequiredFields e) :
    ∃ f, verify_chain loadKey vrf (pre ++ e :: post) pem = .error (.keyError f) ∧
      ∀ post2 : List AuditEvent,
        verify_chain loadKey vrf (pre ++ e :: post2) pem = .error (.keyError f) := by
  obtain ⟨f, hf⟩ := verifyFold_append_error loadKey vrf pem e hmiss pre 0 Json.null hpre
  have hne : ∀ post2 : List AuditEvent, (pre ++ e :: post2).isEmpty = false := by
    intro post2; cases pre <;> simp
  exact ⟨f, by simp [verify_chain, hne post, hf post],
    fun post2 => by simp [verify_chain, hne post2, hf post2]⟩

/-- C4, counterexample to the claim as stated: on a concrete sequence
whose first event lacks `ts`, the run aborts with `KeyError("ts")` —
no `MissingField` finding exists, and the second event is never scanned,
instead of a finding being recorded and scanning continuing. -/
theorem missing_field_aborts_run_counterexample :
    verify_chain (fun _ : String => (none : Option Unit)) (fun _ _ _ => false)
      [missingTsEvent, genesisEvent] none = .error (.keyError "ts") := rfl

/-- C4, witness: the amended theorem applied at a concrete input (a
well-formed event followed by an event lacking `ts`). -/
theorem missing_field_aborts_run_witness :
    ∃ f, verify_chain (fun _ : String => (none : Option Unit)) (fun _ _ _ => false)
        ([genesisEvent] ++ missingTsEvent :: []) none = .error (.keyError f) ∧
      ∀ post2 : List AuditEvent,
        verify_chain (fun _ : String => (none : Option Unit)) (fun _ _ _ => false)
          ([genesisEvent] ++ missingTsEvent :: post2) none = .error (.keyError f) :=
  missing_field_aborts_run (fun _ : String => (none : Option Unit)) (fun _ _ _ => false)
    none [genesisEvent] missingTsEvent [] (by decide) (by decide)

/-- C7 (amended): for every input sequence whose events all carry the
required fields, the verifier examines every event and never stops at a
failure: the run returns normally, its findings are exactly the
concatenation of each event's own findings (hash, link and signature
checks computed per event from that event and its predecessor's stored
hash alone), every event's findings appear in the result, and `valid` is
true exactly when no finding was recorded.  Sequences with a missing
required field abort instead (see C4), so the claim as literally stated,
quantified over every input sequence, is false. -/
theorem all_events_checked_when_fields_present {K : Type} (loadKey : String → Option K)
    (vrf : K → List Nat → List Nat → Bool) (events : List AuditEvent)
    (pem : Option String) (hreq : ∀ e ∈ events, RequiredFields e) :
    verify_chain loadKey vrf events pem =
      .ok ((chainFindings loadKey vrf pem 0 Json.null events).isEmpty,
           chainFindings loadKey vrf pem 0 Json.null events) ∧
    ∀ j, j < events.length →
      (eventFindings loadKey vrf pem j (prevBefore events j)
          (events.getD j default)).Sublist
        (chainFindings loadKey vrf pem 0 Json.null events) := by
  refine ⟨verify_chain_eq_ok loadKey vrf pem events hreq, fun j hj => ?_⟩
  have h := eventFindings_sublist_chainFindings loadKey vrf pem events 0 Json.null j hj
  simpa [prevBefore] using h

/-- C7, counterexample to the claim as stated: a concrete sequence whose
first event lacks `payload` and whose second event has a broken link; the
run aborts with `KeyError("payload")`, so the second event is never
examined and its failing check is not reported. -/
theorem keyerror_short_circuits_counterexample :
    verify_chain (fun _ : String => (none : Option Unit)) (fun _ _ _ => false)
      [missingPayloadEvent, brokenLinkEvent] none = .error (.keyError "payload") := rfl

/-- C7, witness: the amended theorem applied to a concrete two-event
chain with all required fields present. -/
theorem all_events_checked_witness :
    verify_chain (fun _ : String => (none : Option Unit)) (fun _ _ _ => false)
      [genesisEvent, secondEvent] none =
      .ok ((chainFindings (fun _ : String => (none : Option Unit)) (fun _ _ _ => false)
              none 0 Json.null [genesisEvent, secondEvent]).isEmpty,
           chainFindings (fun _ : String => (none : Option Unit)) (fun _ _ _ => false)
             none 0 Json.null [genesisEvent, secondEvent]) :=
  (all_events_checked_when_fields_present (fun _ : String => (none : Option Unit))
    (fun _ _ _ => false) [genesisEvent, secondEvent] none (by decide)).1

theorem eventFindings_nil {K : Type} (loadKey : String → Option K)
    (vrf : K → List Nat → List Nat → Bool) (pem : Option String)
    (i : Nat) (prev : Json) (e : AuditEvent) (hh : HashOk e)
    (hs : SigOk loadKey vrf pem e) (hl : 0 < i → e.prevHash.getD .null = prev) :
    eventFindings loadKey vrf pem i prev e = [] := by
  unfold HashOk at hh
  unfold SigOk at hs
  rw [hh] at hs
  simp only [Option.getD_some] at hs
  unfold eventFindings
  rw [hh]
  have hcond : ¬(0 < i ∧ e.prevHash.getD .null ≠ prev) := by
    rintro ⟨hi, hne⟩; exact hne (hl hi)
  by_cases hc : pemTruthy pem = true ∧ (e.signature.getD .null).truthy = true
  · simp [hcond, hc, hs hc.1 hc.2]
  · simp [hcond, hc]

theorem chainFindings_nil_of_ok {K : Type} (loadKey : String → Option K)
    (vrf : K → List Nat → List Nat → Bool) (pem : Option String) :
    ∀ (l : List AuditEvent) (i : Nat) (prev : Json),
      (∀ e ∈ l, HashOk e) → (∀ e ∈ l, SigOk loadKey vrf pem e) → LinksOk prev l →
      chainFindings loadKey vrf pem i prev l = []
  | [], _, _, _, _, _ => rfl
  | e :: rest, i, prev, hh, hs, hl => by
    obtain ⟨hl0, hl1⟩ := hl
    rw [chainFindings,
      chainFindings_nil_of_ok loadKey vrf pem rest (i + 1) (e.hash.getD .null)
        (fun x hx => hh x (List.mem_cons_of_mem e hx))
        (fun x hx => hs x (List.mem_cons_of_mem e hx)) hl1,
      eventFindings_nil loadKey vrf pem i prev e (hh e (List.mem_cons_self e rest))
        (hs e (List.mem_cons_self e rest)) (fun _ => hl0)]
    rfl

theorem linksOk_of_indexed :
    ∀ (l : List AuditEvent) (e0 : AuditEvent),
      (∀ j, j < (e0 :: l).length → 0 < j →
        ((e0 :: l).getD j default).prevHash.getD .null =
        (((e0 :: l).getD (j - 1) default).hash).getD .null) →
      LinksOk (e0.hash.getD .null) l
  | [], _, _ => trivial
  | x :: rest, e0, h => by
    refine ⟨by simpa using h 1 (by simp) (by omega), ?_⟩
    apply linksOk_of_indexed rest x
    intro j hj hj0
    obtain ⟨k, rfl⟩ : ∃ k, j = k + 1 := ⟨j - 1, by omega⟩
    have := h (k + 2) (by simpa using Nat.succ_lt_succ hj) (by omega)
    simpa [List.getD_cons_succ] using this

/-- C1: for every sequence in which each event has the required fields,
each stored hash equals the SHA-256 of the canonical encoding of the
hashed fields (`HashOk`), each non-first event links to the stored hash
of its predecessor, and every reached signature check succeeds (`SigOk`),
`verify_chain` emits no findings and returns `valid = true`. -/
theorem verify_chain_valid_of_invariants {K : Type} (loadKey : String → Option K)
    (vrf : K → List Nat → List Nat → Bool) (events : List AuditEvent)
    (pem : Option String)
    (hreq : ∀ e ∈ events, RequiredFields e)
    (hhash : ∀ e ∈ events, HashOk e)
    (hlink : ∀ j, j < events.length → 0 < j →
      ((events.getD j default).prevHash).getD .null =
      (((events.getD (j - 1) default).hash)).getD .null)
    (hsig : ∀ e ∈ events, SigOk loadKey vrf pem e) :
    verify_chain loadKey vrf events pem = .ok (true, []) := by
  cases events with
  | nil => rfl
  | cons e rest =>
    rw [verify_chain_eq_ok loadKey vrf pem (e :: rest) hreq]
    have hnil : chainFindings loadKey vrf pem 0 Json.null (e :: rest) = [] := by
      rw [chainFindings,
        chainFindings_nil_of_ok loadKey vrf pem rest 1 (e.hash.getD .null)
          (fun x hx => hhash x (List.mem_cons_of_mem e hx))
          (fun x hx => hsig x (List.mem_cons_of_mem e hx))
          (linksOk_of_indexed rest e hlink),
        eventFindings_nil loadKey vrf pem 0 Json.null e
          (hhash e (List.mem_cons_self e rest)) (hsig e (List.mem_cons_self e rest))
          (fun habs => absurd habs (by omega))]
      rfl
    rw [hnil]
    rfl

/-- C1, witness: a concrete two-event chain with correct hashes (checked
by the kernel by recomputing the SHA-256 digests), correct links and no
key supplied, on which the theorem yields a clean, valid run. -/
theorem verify_chain_valid_of_invariants_witness :
    verify_chain (fun _ : String => (none : Option Unit)) (fun _ _ _ => false)
      [genesisEvent, secondEvent] none = .ok (true, []) :=
  verify_chain_valid_of_invariants (fun _ : String => (none : Option Unit))
    (fun _ _ _ => false) [genesisEvent, secondEvent] none
    (by decide) (by decide) (by decide) (by decide)

theorem filter_chainFindings_eq_breaksFrom {K : Type} (loadKey : String → Option K)
    (vrf : K → List Nat → List Nat → Bool) (pem : Option String) :
    ∀ (l : List AuditEvent) (i : Nat) (prev : Json),
      (chainFindings loadKey vrf pem i prev l).filter isChainBreak = breaksFrom i prev l
  | [], _, _ => rfl
  | e :: rest, i, prev => by
    rw [chainFindings, breaksFrom, List.filter_append,
      filter_chainFindings_eq_breaksFrom loadKey vrf pem rest (i + 1) (e.hash.getD .null)]
    congr 1
    simp only [eventFindings, List.filter_append,
      apply_ite (List.filter isChainBreak)]
    simp [isChainBreak]

theorem breaksFrom_nil_of_linksOk :
    ∀ (l : List AuditEvent) (i : Nat) (prev : Json), LinksOk prev l →
      breaksFrom i prev l = []
  | [], _, _, _ => rfl
  | e :: rest, i, prev, hl => by
    obtain ⟨hl0, hl1⟩ := hl
    rw [breaksFrom, breaksFrom_nil_of_linksOk rest (i + 1) (e.hash.getD .null) hl1]
    simp [hl0]

theorem breaksFrom_single {bad : AuditEvent} {post : List AuditEvent}
    (hpost : LinksOk (bad.hash.getD .null) post) :
    ∀ (mid : List AuditEvent) (i0 : Nat) (prev : Json), 0 < i0 → LinksOk prev mid →
      bad.prevHash.getD .null ≠ chainEnd prev mid →
      breaksFrom i0 prev (mid ++ bad :: post) =
        [Finding.chainBreak (i0 + mid.length) (chainEnd prev mid)
          (bad.prevHash.getD .null)]
  | [], i0, prev, hi, _, hbad => by
    rw [List.nil_append, breaksFrom,
      breaksFrom_nil_of_linksOk post (i0 + 1) (bad.hash.getD .null) hpost]
    simp only [chainEnd] at hbad ⊢
    simp [hi, hbad]
  | x :: mid, i0, prev, hi, hl, hbad => by
    obtain ⟨hl0, hl1⟩ := hl
    rw [List.cons_append, breaksFrom,
      breaksFrom_single hpost mid (i0 + 1) (x.hash.getD .null) (by omega) hl1
        (by simpa [chainEnd] using hbad)]
    simp only [chainEnd, List.length_cons, hl0]
    have : i0 + 1 + mid.length = i0 + (mid.length + 1) := by omega
    simp [this]

/-- C2: the verifier state always advances to the stored hash of the
event just processed (never the recomputed digest), whatever findings
that event produced — the first conjunct states this for every event —
and consequently a sequence that is correctly linked except for one
wrong `prevHash` at position `mid.length + 1` yields exactly one
ChainBreak, at that position, with no cascading ChainBreak findings for
the later events. -/
theorem chain_state_advances_stored_single_break {K : Type}
    (loadKey : String → Option K) (vrf : K → List Nat → List Nat → Bool)
    (pem : Option String) (e0 bad : AuditEvent) (mid post : List AuditEvent)
    (hreq : ∀ e ∈ e0 :: (mid ++ bad :: post), RequiredFields e)
    (hmid : LinksOk (e0.hash.getD .null) mid)
    (hbad : bad.prevHash.getD .null ≠ chainEnd (e0.hash.getD .null) mid)
    (hpost : LinksOk (bad.hash.getD .null) post) :
    (∀ (i : Nat) (prev : Json) (e : AuditEvent) (rest : List AuditEvent),
      RequiredFields e →
      verifyFold loadKey vrf pem i prev (e :: rest) =
        Except.map (fun fs => eventFindings loadKey vrf pem i prev e ++ fs)
          (verifyFold loadKey vrf pem (i + 1) (e.hash.getD .null) rest)) ∧
    ∃ valid fs,
      verify_chain loadKey vrf (e0 :: (mid ++ bad :: post)) pem = .ok (valid, fs) ∧
      fs.filter isChainBreak =
        [Finding.chainBreak (mid.length + 1) (chainEnd (e0.hash.getD .null) mid)
          (bad.prevHash.getD .null)] := by
  refine ⟨fun i prev e rest h => verifyFold_cons loadKey vrf pem i prev e rest h,
    _, _, verify_chain_eq_ok loadKey vrf pem _ hreq, ?_⟩
  rw [filter_chainFindings_eq_breaksFrom loadKey vrf pem _ 0 Json.null, breaksFrom,
    breaksFrom_single hpost mid 1 (e0.hash.getD .null) (by omega) hmid hbad]
  simp [Nat.add_comm]

/-- C2, witness: a concrete two-event chain whose second event carries a
damaged `prevHash`; the theorem yields exactly one ChainBreak at
position 1. -/
theorem chain_state_advances_stored_single_break_witness :
    (∀ (i : Nat) (prev : Json) (e : AuditEvent) (rest : List AuditEvent),
      RequiredFields e →
      verifyFold (fun _ : String => (none : Option Unit)) (fun _ _ _ => false)
          none i prev (e :: rest) =
        Except.map (fun fs => eventFindings (fun _ : String => (none : Option Unit))
            (fun _ _ _ => false) none i prev e ++ fs)
          (verifyFold (fun _ : String => (none : Option Unit)) (fun _ _ _ => false)
            none (i + 1) (e.hash.getD .null) rest)) ∧
    ∃ valid fs,
      verify_chain (fun _ : String => (none : Option Unit)) (fun _ _ _ => false)
        (genesisEvent :: ([] ++ brokenLinkEvent :: [])) none = .ok (valid, fs) ∧
      fs.filter isChainBreak =
        [Finding.chainBreak ((List.length ([] : List AuditEvent)) + 1)
          (chainEnd (genesisEvent.hash.getD .null) [])
          (brokenLinkEvent.prevHash.getD .null)] :=
  chain_state_advances_stored_single_break (fun _ : String => (none : Option Unit))
    (fun _ _ _ => false) none genesisEvent brokenLinkEvent [] []
    (by decide) (by decide) (by decide) (by decide)

theorem verifyStep_oracle_irrelevant {K K2 : Type} (loadKey : String → Option K)
    (vrf : K → List Nat → List Nat → Bool) (loadKey2 : String → Option K2)
    (vrf2 : K2 → List Nat → List Nat → Bool) (pem : Option String)
    (hpem : pemTruthy pem = false) (i : Nat) (prev : Json) (e : AuditEvent) :
    verifyStep loadKey vrf pem i prev e = verifyStep loadKey2 vrf2 pem i prev e := by
  unfold verifyStep
  cases e.eventType <;> cases e.payload <;> cases e.ts <;> cases e.hash <;>
    simp [hpem]

theorem verifyFold_oracle_irrelevant {K K2 : Type} (loadKey : String → Option K)
    (vrf : K → List Nat → List Nat → Bool) (loadKey2 : String → Option K2)
    (vrf2 : K2 → List Nat → List Nat → Bool) (pem : Option String)
    (hpem : pemTruthy pem = false) :
    ∀ (l : List AuditEvent) (i : Nat) (prev : Json),
      verifyFold loadKey vrf pem i prev l = verifyFold loadKey2 vrf2 pem i prev l
  | [], _, _ => rfl
  | e :: rest, i, prev => by
    simp only [verifyFold,
      verifyStep_oracle_irrelevant loadKey vrf loadKey2 vrf2 pem hpem i prev e]
    cases verifyStep loadKey2 vrf2 pem i prev e with
    | error e2 => rfl
    | ok p =>
      obtain ⟨fs1, st⟩ := p
      simp only [verifyFold_oracle_irrelevant loadKey vrf loadKey2 vrf2 pem hpem rest (i + 1) st]

theorem verifyStep_error_of_missing {K : Type} (loadKey : String → Option K)
    (vrf : K → List Nat → List Nat → Bool) (pem : Option String)
    (i : Nat) (prev : Json) (e : AuditEvent) (hmiss : ¬ RequiredFields e) :
    ∃ f, verifyStep loadKey vrf pem i prev e = .error (.keyError f) := by
  match h1 : e.eventType with
  | none => exact ⟨"eventType", by simp [verifyStep, h1]⟩
  | some et =>
    match h2 : e.payload with
    | none => exact ⟨"payload", by simp [verifyStep, h1, h2]⟩
    | some p =>
      match h3 : e.ts with
      | none => exact ⟨"ts", by simp [verifyStep, h1, h2, h3]⟩
      | some t =>
        match h4 : e.hash with
        | none => exact ⟨"hash", by simp [verifyStep, h1, h2, h3, h4]⟩
        | some hv =>
          exact absurd ⟨by simp [h1], by simp [h2], by simp [h3], by simp [h4]⟩ hmiss

theorem verifyStep_ok_inv {K : Type} (loadKey : String → Option K)
    (vrf : K → List Nat → List Nat → Bool) (pem : Option String)
    (i : Nat) (prev : Json) (e : AuditEvent) (fs : List Finding) (st : Json)
    (h : verifyStep loadKey vrf pem i prev e = .ok (fs, st)) :
    RequiredFields e ∧ fs = eventFindings loadKey vrf pem i prev e ∧
      st = e.hash.getD .null := by
  by_cases hr : RequiredFields e
  · have h2 := verifyStep_eq_ok loadKey vrf pem i prev e hr
    rw [h2] at h
    cases h
    exact ⟨hr, rfl, rfl⟩
  · obtain ⟨f, hf⟩ := verifyStep_error_of_missing loadKey vrf pem i prev e hr
    rw [hf] at h
    cases h

theorem eventFindings_no_sig {K : Type} (loadKey : String → Option K)
    (vrf : K → List Nat → List Nat → Bool) (pem : Option String)
    (i : Nat) (prev : Json) (e : AuditEvent) (hpem : pemTruthy pem = false) :
    ∀ f ∈ eventFindings loadKey vrf pem i prev e, isSignatureInvalid f = false := by
  intro f hf
  unfold eventFindings at hf
  simp only [hpem, Bool.false_eq_true, false_and, if_false, List.append_nil] at hf
  rcases List.mem_append.mp hf with hf1 | hf2
  · revert hf1; split <;> intro hf1 <;> simp_all [isSignatureInvalid]
  · revert hf2; split <;> intro hf2 <;> simp_all [isSignatureInvalid]

theorem verifyFold_cons_inv {K : Type} (loadKey : String → Option K)
    (vrf : K → List Nat → List Nat → Bool) (pem : Option String)
    (i : Nat) (prev : Json) (e : AuditEvent) (rest : List AuditEvent)
    (fs : List Finding) (h : verifyFold loadKey vrf pem i prev (e :: rest) = .ok fs) :
    RequiredFields e ∧
    ∃ more, verifyFold loadKey vrf pem (i + 1) (e.hash.getD .null) rest = .ok more ∧
      fs = eventFindings loadKey vrf pem i prev e ++ more := by
  by_cases hr : RequiredFields e
  · rw [verifyFold_cons loadKey vrf pem i prev e rest hr] at h
    cases hrest : verifyFold loadKey vrf pem (i + 1) (e.hash.getD .null) rest with
    | error e2 =>
      rw [hrest] at h
      cases h
    | ok more =>
      rw [hrest] at h
      cases h
      exact ⟨hr, more, rfl, rfl⟩
  · obtain ⟨f, hf⟩ := verifyStep_error_of_missing loadKey vrf pem i prev e hr
    unfold verifyFold at h
    rw [hf] at h
    cases h

theorem verifyFold_ok_no_sig {K : Type} (loadKey : String → Option K)
    (vrf : K → List Nat → List Nat → Bool) (pem : Option String)
    (hpem : pemTruthy pem = false) :
    ∀ (l : List AuditEvent) (i : Nat) (prev : Json) (fs : List Finding),
      verifyFold loadKey vrf pem i prev l = .ok fs →
      ∀ f ∈ fs, isSignatureInvalid f = false
  | [], _, _, fs, h => by cases h; simp
  | e :: rest, i, prev, fs, h => by
    obtain ⟨hr, more, hmore, rfl⟩ :=
      verifyFold_cons_inv loadKey vrf pem i prev e rest fs h
    intro f hf
    rcases List.mem_append.mp hf with h1 | h2
    · exact eventFindings_no_sig loadKey vrf pem i prev e hpem f h1
    · exact verifyFold_ok_no_sig loadKey vrf pem hpem rest (i + 1) (e.hash.getD .null)
        more hmore f h2

/-- C5 (amended): running with no public key supplied (or an empty one)
yields no SignatureInvalid findings even when signatures are present,
but the result does NOT mark the signature checks as skipped: it is
identical to the result produced under any other key loader and
signature oracle whatsoever, so the caller cannot tell an unverified run
from a fully verified one.  The claim that the report surfaces
"unverified" is false of the code, whose only outputs are the `valid`
flag and the findings. -/
theorem no_key_no_signature_findings {K K2 : Type} (loadKey : String → Option K)
    (vrf : K → List Nat → List Nat → Bool) (loadKey2 : String → Option K2)
    (vrf2 : K2 → List Nat → List Nat → Bool) (events : List AuditEvent)
    (pem : Option String) (hpem : pemTruthy pem = false) :
    verify_chain loadKey vrf events pem = verify_chain loadKey2 vrf2 events pem ∧
    ∀ valid fs, verify_chain loadKey vrf events pem = .ok (valid, fs) →
      ∀ f ∈ fs, isSignatureInvalid f = false := by
  constructor
  · unfold verify_chain
    cases events with
    | nil => rfl
    | cons e rest =>
      rw [verifyFold_oracle_irrelevant loadKey vrf loadKey2 vrf2 pem hpem (e :: rest) 0 Json.null]
  · intro valid fs h
    unfold verify_chain at h
    cases events with
    | nil =>
      simp only [List.isEmpty_nil, if_true] at h
      cases h
      simp
    | cons e rest =>
      simp only [List.isEmpty_cons, Bool.false_eq_true, if_false] at h
      cases hfold : verifyFold loadKey vrf pem 0 Json.null (e :: rest) with
      | error e2 =>
        rw [hfold] at h
        cases h
      | ok fsr =>
        rw [hfold] at h
        have hfs : fs = fsr := by cases h; rfl
        subst hfs
        exact verifyFold_ok_no_sig loadKey vrf pem hpem (e :: rest) 0 Json.null fs hfold

/-- C5, counterexample to the claim as stated: a run over a correctly
hashed event that carries a signature, with no public key supplied,
returns exactly `.ok (true, [])` — byte-identical to the result of a run
whose key loads and whose signature verifies, with nothing in the result
marking the signature checks as skipped. -/
theorem skipped_signatures_silent_counterexample :
    verify_chain (fun _ : String => (none : Option Unit)) (fun _ _ _ => false)
      [signedEvent] none = .ok (true, []) ∧
    verify_chain (fun _ : String => some ()) (fun _ _ _ => true)
      [signedEvent] (some "key") = .ok (true, []) :=
  ⟨by decide, by decide⟩

/-- C5, witness: the amended theorem applied to the signed event with no
key supplied, against the oracle pair that would have accepted the
signature. -/
theorem no_key_no_signature_findings_witness :
    verify_chain (fun _ : String => (none : Option Unit)) (fun _ _ _ => false)
        [signedEvent] none =
      verify_chain (fun _ : String => some ()) (fun _ _ _ => true) [signedEvent] none ∧
    ∀ valid fs,
      verify_chain (fun _ : String => (none : Option Unit)) (fun _ _ _ => false)
          [signedEvent] none = .ok (valid, fs) →
      ∀ f ∈ fs, isSignatureInvalid f = false :=
  no_key_no_signature_findings (fun _ : String => (none : Option Unit))
    (fun _ _ _ => false) (fun _ : String => some ()) (fun _ _ _ => true)
    [signedEvent] none (by decide)

/-- C9: signature verification validates the detached signature over the
UTF-8 bytes of the stored hash string (not the payload); the signature
string is decoded as base64 first, falling back to hex exactly when the
base64 decode fails; and the check returns invalid precisely when the key
does not load, the signature or hash is not a string, both decodes fail,
or the cryptographic verification itself fails. -/
theorem verify_signature_characterization {K : Type} (loadKey : String → Option K)
    (vrf : K → List Nat → List Nat → Bool) (public_key_pem : String)
    (signature_hex data_hash : Json) :
    (verify_signature loadKey vrf public_key_pem signature_hex data_hash = true ↔
      ∃ key s bytes hashStr,
        loadKey public_key_pem = some key ∧ signature_hex = .str s ∧
        sigDecode s = some bytes ∧ data_hash = .str hashStr ∧
        vrf key bytes (utf8Encode hashStr) = true) ∧
    (∀ s bytes, b64decode s = some bytes → sigDecode s = some bytes) ∧
    (∀ s, b64decode s = none → sigDecode s = hexDecode s) := by
  refine ⟨?_, fun s bytes h => by simp [sigDecode, h], fun s h => by simp [sigDecode, h]⟩
  unfold verify_signature
  cases hk : loadKey public_key_pem with
  | none => simp [hk]
  | some key =>
    cases signature_hex with
    | str s =>
      cases hd : sigDecode s with
      | none => simp [hk, hd]
      | some bytes =>
        cases data_hash <;> simp [hk, hd]
    | null => simp [hk]
    | bool b => simp [hk]
    | num n => simp [hk]
    | arr xs => simp [hk]
    | obj kvs => simp [hk]

theorem compressStep_length :
    ∀ (s : List Nat) (kw : Nat × Nat), s.length = 8 → (compressStep s kw).length = 8
  | [a, b, c, d, e, f, g, h8], _, _ => rfl
  | [], _, h => by simp at h
  | [_], _, h => by simp at h
  | [_, _], _, h => by simp at h
  | [_, _, _], _, h => by simp at h
  | [_, _, _, _], _, h => by simp at h
  | [_, _, _, _, _], _, h => by simp at h
  | [_, _, _, _, _, _], _, h => by simp at h
  | [_, _, _, _, _, _, _], _, h => by simp at h
  | _ :: _ :: _ :: _ :: _ :: _ :: _ :: _ :: _ :: _, _, h => by
      simp only [List.length_cons] at h; omega

theorem foldl_compressStep_length :
    ∀ (l : List (Nat × Nat)) (s : List Nat), s.length = 8 →
      (l.foldl compressStep s).length = 8
  | [], _, h => h
  | kw :: l, s, h =>
    foldl_compressStep_length l (compressStep s kw) (compressStep_length s kw h)

theorem compressBlock_length (h : List Nat) (block : List Nat) (hl : h.length = 8) :
    (compressBlock h block).length = 8 := by
  unfold compressBlock
  have hf := foldl_compressStep_length (shaK.zip (schedule (toWords block))) h hl
  simp [List.length_zip, hl, hf]

theorem foldl_compressBlock_length :
    ∀ (blocks : List (List Nat)) (h : List Nat), h.length = 8 →
      (blocks.foldl compressBlock h).length = 8
  | [], _, hl => hl
  | b :: blocks, h, hl =>
    foldl_compressBlock_length blocks (compressBlock h b) (compressBlock_length h b hl)

theorem be32_lt (n : Nat) : ∀ b ∈ be32 n, b < 256 := by
  intro b hb
  simp only [be32, List.mem_cons, List.not_mem_nil, or_false] at hb
  rcases hb with rfl | rfl | rfl | rfl <;> exact Nat.mod_lt _ (by omega)

theorem flatten_map_be32_length :
    ∀ ws : List Nat, ((ws.map be32).flatten).length = 4 * ws.length
  | [] => rfl
  | w :: ws => by
    simp only [List.map_cons, List.flatten_cons, List.length_append,
      flatten_map_be32_length ws, be32, List.length_cons, List.length_nil, List.length_cons]
    omega

theorem sha256bytes_length (msg : List Nat) : (sha256bytes msg).length = 32 := by
  unfold sha256bytes
  rw [flatten_map_be32_length,
    foldl_compressBlock_length (chunk64 (padMessage msg)) shaInit rfl]

theorem sha256bytes_lt (msg : List Nat) : ∀ b ∈ sha256bytes msg, b < 256 := by
  unfold sha256bytes
  intro b hb
  simp only [List.mem_flatten, List.mem_map] at hb
  obtain ⟨l, ⟨w, _, rfl⟩, hbl⟩ := hb
  exact be32_lt w b hbl

theorem hexChar_mem (n : Nat) (h : n < 16) : hexChar n ∈ "0123456789abcdef".toList := by
  interval_cases n <;> decide

theorem flatten_map_hexpair_length :
    ∀ bs : List Nat,
      ((bs.map (fun b => [hexChar (b / 16), hexChar (b % 16)])).flatten).length =
        2 * bs.length
  | [] => rfl
  | b :: bs => by
    simp only [List.map_cons, List.flatten_cons, List.length_append,
      flatten_map_hexpair_length bs, List.length_cons, List.length_nil]
    omega

theorem sha256hex_length (msg : List Nat) : (sha256hex msg).length = 64 := by
  unfold sha256hex
  show ((sha256bytes msg).map (fun b => [hexChar (b / 16), hexChar (b % 16)])).flatten.length = 64
  rw [flatten_map_hexpair_length, sha256bytes_length]

theorem sha256hex_chars (msg : List Nat) :
    ∀ c ∈ (sha256hex msg).toList, c ∈ "0123456789abcdef".toList := by
  intro c hc
  unfold sha256hex at hc
  have hc2 : c ∈ ((sha256bytes msg).map
      (fun b => [hexChar (b / 16), hexChar (b % 16)])).flatten := hc
  simp only [List.mem_flatten, List.mem_map] at hc2
  obtain ⟨l, ⟨b, hb, rfl⟩, hcl⟩ := hc2
  have hblt : b < 256 := sha256bytes_lt msg b hb
  simp only [List.mem_cons, List.not_mem_nil, or_false] at hcl
  rcases hcl with rfl | rfl
  · exact hexChar_mem _ (Nat.div_lt_of_lt_mul (by omega))
  · exact hexChar_mem _ (Nat.mod_lt _ (by omega))

/-- C8: the recomputed digest is SHA-256 applied to the canonical
encoding of the fixed 4-field record (`hashData`), rendered as exactly 64
lowercase hexadecimal characters; `compute_hash` is a pure Lean function
of the four fields, so it has no side effects by construction. -/
theorem compute_hash_is_sha256_of_canonical (event_type payload prev_hash ts : Json) :
    compute_hash event_type payload prev_hash ts =
      sha256hex (utf8Encode (canonical_json event_type payload prev_hash ts)) ∧
    canonical_json event_type payload prev_hash ts =
      plainDumps (Json.normalize (hashData event_type payload prev_hash ts)) ∧
    (compute_hash event_type payload prev_hash ts).length = 64 ∧
    ∀ c ∈ (compute_hash event_type payload prev_hash ts).toList,
      c ∈ "0123456789abcdef".toList :=
  ⟨rfl, rfl, sha256hex_length _, sha256hex_chars _⟩

/-- FIPS 180-4 known-answer test: the SHA-256 digest of `"abc"`,
checked by kernel computation. -/
theorem sha256_known_answer_abc :
    sha256hex (utf8Encode "abc") =
      "ba7816bf8f01cfea414140de5dae2223b00361a396177a9cb410ff61f20015ad" := by decide

/-- Known-answer test: the SHA-256 digest of the empty message. -/
theorem sha256_known_answer_empty :
    sha256hex (utf8Encode "") =
      "e3b0c44298fc1c149afbf4c8996fb92427ae41e4649b934ca495991b7852b855" := by decide

/-- Known-answer test with a message long enough to need two compression
blocks. -/
theorem sha256_known_answer_two_blocks :
    sha256hex (utf8Encode
        "The quick brown fox jumps over the lazy dog. 123456789 the second block now") =
      "be3a9a7b860f06e96db96b795e78e2024e676cc10713c140babcf9276a872a31" := by decide

/-- Byte-exactness of the canonical encoding on a concrete event: the
output coincides, character for character, with what
`json.dumps(data, sort_keys=True, separators=(",", ":"))` prints for the
same record in Python. -/
theorem canonical_json_concrete_example :
    canonical_json (.str "a") (.obj [("x", .num 1)]) .null (.str "t0") =
      "\x7b\"eventType\":\"a\",\"payload\":\x7b\"x\":1\x7d,\"prevHash\":null,\"ts\":\"t0\"\x7d" := by
  decide

theorem charListLt_irrefl : ∀ l : List Char, charListLt l l = false
  | [] => rfl
  | a :: as => by simp [charListLt, charListLt_irrefl as]

theorem charListLt_trans :
    ∀ l1 l2 l3 : List Char, charListLt l1 l2 = true → charListLt l2 l3 = true →
      charListLt l1 l3 = true
  | [], [], _, h1, _ => by simp [charListLt] at h1
  | [], _ :: _, [], _, h2 => by simp [charListLt] at h2
  | [], _ :: _, _ :: _, _, _ => rfl
  | _ :: _, [], _, h1, _ => by simp [charListLt] at h1
  | _ :: _, _ :: _, [], _, h2 => by simp [charListLt] at h2
  | a :: as, b :: bs, c :: cs, h1, h2 => by
    simp only [charListLt, Bool.or_eq_true, Bool.and_eq_true, beq_iff_eq,
      decide_eq_true_eq] at h1 h2 ⊢
    rcases h1 with h1 | ⟨hab, h1⟩
    · rcases h2 with h2 | ⟨hbc, h2⟩
      · exact Or.inl (by omega)
      · exact Or.inl (by omega)
    · rcases h2 with h2 | ⟨hbc, h2⟩
      · exact Or.inl (by omega)
      · exact Or.inr ⟨by omega, charListLt_trans as bs cs h1 h2⟩

theorem charListLt_eq_of_not :
    ∀ l1 l2 : List Char, charListLt l1 l2 = false → charListLt l2 l1 = false → l1 = l2
  | [], [], _, _ => rfl
  | [], _ :: _, h1, _ => by simp [charListLt] at h1
  | _ :: _, [], _, h2 => by simp [charListLt] at h2
  | a :: as, b :: bs, h1, h2 => by
    simp only [charListLt, Bool.or_eq_false_iff] at h1 h2
    have hd1 := h1.1
    have hd2 := h2.1
    simp only [decide_eq_false_iff_not, not_lt] at hd1 hd2
    have hab : a.toNat = b.toNat := by omega
    have ha : a = b := Char.eq_of_val_eq (UInt32.ext hab)
    subst ha
    have h1b := h1.2
    have h2b := h2.2
    simp only [beq_self_eq_true, Bool.true_and] at h1b h2b
    rw [charListLt_eq_of_not as bs h1b h2b]

theorem strLe_total (a b : String) : strLe a b = true ∨ strLe b a = true := by
  unfold strLe
  cases h1 : charListLt b.toList a.toList with
  | false => exact Or.inl (by simp)
  | true =>
    cases h2 : charListLt a.toList b.toList with
    | false => exact Or.inr (by simp)
    | true =>
      exfalso
      have h3 := charListLt_trans _ _ _ h1 h2
      rw [charListLt_irrefl] at h3
      cases h3

theorem strLe_trans {a b c : String} (h1 : strLe a b = true) (h2 : strLe b c = true) :
    strLe a c = true := by
  unfold strLe at h1 h2 ⊢
  simp only [Bool.not_eq_true'] at h1 h2 ⊢
  cases h3 : charListLt c.toList a.toList with
  | false => rfl
  | true =>
    exfalso
    by_cases hbc : charListLt b.toList c.toList = true
    · have h4 := charListLt_trans _ _ _ hbc h3
      rw [h1] at h4
      cases h4
    · have heq := charListLt_eq_of_not c.toList b.toList h2
        (by rwa [Bool.not_eq_true] at hbc)
      rw [heq] at h3
      rw [h3] at h1
      cases h1

theorem strLe_antisymm_eq {a b : String} (h1 : strLe a b = true) (h2 : strLe b a = true) :
    a = b := by
  unfold strLe at h1 h2
  simp only [Bool.not_eq_true'] at h1 h2
  exact String.ext (charListLt_eq_of_not a.toList b.toList h2 h1)

instance : IsTotal (String × Json) keyLE := ⟨fun p q => strLe_total p.1 q.1⟩

instance : IsTrans (String × Json) keyLE := ⟨fun _ _ _ => strLe_trans⟩

instance : IsAntisymm (String × Json) keyLT :=
  ⟨fun _ _ h1 h2 => absurd (strLe_antisymm_eq h1.1 h2.1) h1.2⟩

theorem sortKVs_sorted (l : List (String × Json)) : List.Sorted keyLE (sortKVs l) :=
  List.sorted_insertionSort keyLE l

theorem sortKVs_self_perm (l : List (String × Json)) : (sortKVs l).Perm l :=
  List.perm_insertionSort keyLE l

theorem sortKVs_congr_perm {l1 l2 : List (String × Json)} (hperm : l1.Perm l2)
    (hnodup : (l1.map Prod.fst).Nodup) : sortKVs l1 = sortKVs l2 := by
  have hp : (sortKVs l1).Perm (sortKVs l2) :=
    (sortKVs_self_perm l1).trans (hperm.trans (sortKVs_self_perm l2).symm)
  have hn1 : ((sortKVs l1).map Prod.fst).Nodup :=
    (((sortKVs_self_perm l1).map Prod.fst).nodup_iff).mpr hnodup
  have hn2 : ((sortKVs l2).map Prod.fst).Nodup := by
    have hl2 : (l2.map Prod.fst).Nodup := ((hperm.map Prod.fst).nodup_iff).mp hnodup
    exact (((sortKVs_self_perm l2).map Prod.fst).nodup_iff).mpr hl2
  have hs1 : List.Sorted keyLT (sortKVs l1) := by
    have hb : List.Pairwise (fun p q : String × Json => p.1 ≠ q.1) (sortKVs l1) := by
      rw [List.Nodup, List.pairwise_map] at hn1
      exact hn1
    exact ((sortKVs_sorted l1).and hb).imp (fun h => h)
  have hs2 : List.Sorted keyLT (sortKVs l2) := by
    have hb : List.Pairwise (fun p q : String × Json => p.1 ≠ q.1) (sortKVs l2) := by
      rw [List.Nodup, List.pairwise_map] at hn2
      exact hn2
    exact ((sortKVs_sorted l2).and hb).imp (fun h => h)
  exact List.eq_of_perm_of_sorted hp hs1 hs2

theorem normalizeKVs_eq_map :
    ∀ kvs : List (String × Json),
      Json.normalizeKVs kvs = kvs.map (fun p => (p.1, Json.normalize p.2))
  | [] => rfl
  | (k, v) :: kvs => by simp [Json.normalizeKVs, normalizeKVs_eq_map kvs]

theorem normalizeKVs_keys (kvs : List (String × Json)) :
    (Json.normalizeKVs kvs).map Prod.fst = kvs.map Prod.fst := by
  rw [normalizeKVs_eq_map, List.map_map]
  rfl

theorem normalizeList_eq_map : ∀ xs : List Json,
    Json.normalizeList xs = xs.map Json.normalize
  | [] => rfl
  | x :: xs => by simp [Json.normalizeList, normalizeList_eq_map xs]

theorem wfKeysKVs_all : ∀ kvs : List (String × Json),
    Json.wfKeysKVs kvs = kvs.all (fun p => Json.wfKeys p.2)
  | [] => rfl
  | (k, v) :: kvs => by simp [Json.wfKeysKVs, wfKeysKVs_all kvs]

theorem wfKeysKVs_perm {kvs lws : List (String × Json)} (h : kvs.Perm lws) :
    Json.wfKeysKVs kvs = Json.wfKeysKVs lws := by
  rw [wfKeysKVs_all, wfKeysKVs_all]
  apply Bool.eq_iff_iff.mpr
  simp only [List.all_eq_true]
  exact ⟨fun ha p hp => ha p (h.mem_iff.mpr hp), fun ha p hp => ha p (h.mem_iff.mp hp)⟩

mutual
theorem KeyPerm.normalize_eq : ∀ {a b : Json}, KeyPerm a b → Json.wfKeys a = true →
    Json.normalize a = Json.normalize b
  | _, _, .null, _ => rfl
  | _, _, .bool b, _ => rfl
  | _, _, .num n, _ => rfl
  | _, _, .str s, _ => rfl
  | _, _, @KeyPerm.arr xs ys hl, hwf => by
    simp only [Json.normalize]
    rw [KeyPermList.normalizeList_eq hl (by simpa [Json.wfKeys] using hwf)]
  | _, _, @KeyPerm.obj kvs kvs1 kvs2 hperm hkv, hwf => by
    simp only [Json.wfKeys, Bool.and_eq_true, decide_eq_true_eq] at hwf
    simp only [Json.normalize]
    have hwf1 : Json.wfKeysKVs kvs1 = true := by
      rw [← wfKeysKVs_perm hperm]
      exact hwf.2
    have heq : Json.normalizeKVs kvs1 = Json.normalizeKVs kvs2 :=
      KeyPermKVs.normalizeKVs_eq hkv hwf1
    have hpm : (Json.normalizeKVs kvs).Perm (Json.normalizeKVs kvs1) := by
      rw [normalizeKVs_eq_map, normalizeKVs_eq_map]
      exact hperm.map _
    have hnd : ((Json.normalizeKVs kvs).map Prod.fst).Nodup := by
      rw [normalizeKVs_keys]
      exact hwf.1
    exact congrArg Json.obj (heq ▸ sortKVs_congr_perm hpm hnd)
theorem KeyPermList.normalizeList_eq : ∀ {xs ys : List Json}, KeyPermList xs ys →
    Json.wfKeysList xs = true → Json.normalizeList xs = Json.normalizeList ys
  | _, _, .nil, _ => rfl
  | _, _, @KeyPermList.cons x y xs ys hxy hrest, hwf => by
    simp only [Json.wfKeysList, Bool.and_eq_true] at hwf
    simp only [Json.normalizeList]
    rw [KeyPerm.normalize_eq hxy hwf.1, KeyPermList.normalizeList_eq hrest hwf.2]
theorem KeyPermKVs.normalizeKVs_eq : ∀ {kvs lws : List (String × Json)},
    KeyPermKVs kvs lws → Json.wfKeysKVs kvs = true →
    Json.normalizeKVs kvs = Json.normalizeKVs lws
  | _, _, .nil, _ => rfl
  | _, _, @KeyPermKVs.cons k v w kvs lws hvw hrest, hwf => by
    simp only [Json.wfKeysKVs, Bool.and_eq_true] at hwf
    simp only [Json.normalizeKVs]
    rw [KeyPerm.normalize_eq hvw hwf.1, KeyPermKVs.normalizeKVs_eq hrest hwf.2]
end

theorem orderedInsert_map_normalize (p : String × Json) :
    ∀ l : List (String × Json),
      List.orderedInsert keyLE (p.1, Json.normalize p.2)
          (l.map (fun q => (q.1, Json.normalize q.2))) =
        (List.orderedInsert keyLE p l).map (fun q => (q.1, Json.normalize q.2))
  | [] => rfl
  | q :: l => by
    simp only [List.map_cons, List.orderedInsert, keyLE]
    by_cases h : strLe p.1 q.1 = true
    · simp [h]
    · simp [h, orderedInsert_map_normalize p l]

/-- The dict case of `Json.normalize` in the exact shape the source
writes it, `{k: normalize(v) for k, v in sorted(obj.items())}`: the items
are sorted first and each value is then normalized.  This justifies the
map-then-sort form used in the definition, which Lean accepts as
structurally recursive. -/
theorem normalize_obj_source_order (kvs : List (String × Json)) :
    Json.normalize (.obj kvs) = .obj (Json.normalizeKVs (sortKVs kvs)) := by
  simp only [Json.normalize]
  refine congrArg Json.obj ?_
  rw [normalizeKVs_eq_map, normalizeKVs_eq_map]
  unfold sortKVs
  induction kvs with
  | nil => rfl
  | cons p kvs ih =>
    simp only [List.map_cons, List.insertionSort, ih]
    exact orderedInsert_map_normalize p (List.insertionSort keyLE kvs)

/-- C3: two structurally equal payloads that differ only in the insertion
order of mapping keys (at any depth, `KeyPerm`) canonicalize to identical
bytes and hash to identical digests; moreover the normalization rewrites
mappings with keys sorted, keeps sequence order with members normalized
recursively, and passes scalars through unchanged. -/
theorem canonical_encoding_key_order_invariant (event_type prev_hash ts p q : Json)
    (hkp : KeyPerm p q) (hwf : Json.wfKeys p = true) :
    canonical_json event_type p prev_hash ts = canonical_json event_type q prev_hash ts ∧
    compute_hash event_type p prev_hash ts = compute_hash event_type q prev_hash ts ∧
    (∀ xs : List Json, Json.normalize (.arr xs) = .arr (xs.map Json.normalize)) ∧
    (∀ s, Json.normalize (.str s) = .str s) ∧
    (∀ n, Json.normalize (.num n) = .num n) ∧
    (∀ b, Json.normalize (.bool b) = .bool b) ∧
    Json.normalize .null = .null ∧
    (∀ kvs, Json.normalize (.obj kvs) = .obj (sortKVs (Json.normalizeKVs kvs)) ∧
      List.Sorted keyLE (sortKVs (Json.normalizeKVs kvs))) := by
  have hnorm : Json.normalize p = Json.normalize q := KeyPerm.normalize_eq hkp hwf
  refine ⟨?_, ?_, fun xs => by simp [Json.normalize, normalizeList_eq_map],
    fun s => rfl, fun n => rfl, fun b => rfl, rfl,
    fun kvs => ⟨rfl, sortKVs_sorted _⟩⟩
  · unfold canonical_json hashData
    rw [hnorm]
  · unfold compute_hash canonical_json hashData
    rw [hnorm]

/-- C3, witness: the theorem applied to two concrete payload mappings
that differ only in key insertion order. -/
theorem canonical_encoding_key_order_invariant_witness :
    canonical_json (.str "e") (.obj [("b", .num 1), ("a", .num 2)]) .null (.str "t") =
      canonical_json (.str "e") (.obj [("a", .num 2), ("b", .num 1)]) .null (.str "t") ∧
    compute_hash (.str "e") (.obj [("b", .num 1), ("a", .num 2)]) .null (.str "t") =
      compute_hash (.str "e") (.obj [("a", .num 2), ("b", .num 1)]) .null (.str "t") ∧
    (∀ xs : List Json, Json.normalize (.arr xs) = .arr (xs.map Json.normalize)) ∧
    (∀ s, Json.normalize (.str s) = .str s) ∧
    (∀ n, Json.normalize (.num n) = .num n) ∧
    (∀ b, Json.normalize (.bool b) = .bool b) ∧
    Json.normalize .null = .null ∧
    (∀ kvs, Json.normalize (.obj kvs) = .obj (sortKVs (Json.normalizeKVs kvs)) ∧
      List.Sorted keyLE (sortKVs (Json.normalizeKVs kvs))) :=
  canonical_encoding_key_order_invariant (.str "e") .null (.str "t")
    (.obj [("b", .num 1), ("a", .num 2)]) (.obj [("a", .num 2), ("b", .num 1)])
    (KeyPerm.obj (List.Perm.swap ("a", Json.num 2) ("b", Json.num 1) [])
      (KeyPermKVs.cons (KeyPerm.num 2) (KeyPermKVs.cons (KeyPerm.num 1) KeyPermKVs.nil)))
    (by decide)

end AuditChain
